import Mathlib

/-
Verification of the pipeline orchestration engine specified by this
repository (a GitHub-Actions-style web-API automation project).  The
repository contains declarative workflow documents (ci.yml, cd.yml,
dependency-management.yml, advanced-features.yml, the composite action
setup-and-test/action.yml, and the monitoring workflow) together with a
specification of the orchestration core (DAG Builder, Expression
Evaluator, Scheduler, Artifact Store, Approval Gate Manager, Rollback
Controller).  The orchestration engine itself ships no implementation
source, so the engine components below are modelled from the
specification text; the workflow documents are embedded literally where
a claim is about them.
-/

namespace Pipeline

/-- Job run lifecycle states (spec data model, JobRun): Pending, Blocked,
Ready, Running, Succeeded, Failed, Skipped, Cancelled. -/
inductive JobState where
  | pending
  | blocked
  | ready
  | running
  | succeeded
  | failed
  | skipped
  | cancelled
deriving DecidableEq, BEq

/-- Terminal states per the spec data model: exactly one of
Succeeded, Failed, Skipped, Cancelled is terminal. -/
def JobState.isTerminal : JobState → Bool
  | .succeeded => true
  | .failed => true
  | .skipped => true
  | .cancelled => true
  | _ => false

/- ---------------------------------------------------------------- -/
/- DAG Builder (spec 4.2): job map, needs relation, cycle detection.  -/
/- ---------------------------------------------------------------- -/

/-- A pipeline definition's job map: each entry is a job name together
with the list of job names it `needs`. -/
abbrev JobMap := List (String × List String)

/-- The declared job names of a job map. -/
def jobNames (g : JobMap) : List String := g.map (fun p => p.1)

/-- The `needs` relation over the job map: `needsRel g a b` holds when
some job entry named `a` lists `b` among its needs. -/
def needsRel (g : JobMap) (a b : String) : Prop :=
  ∃ p, p ∈ g ∧ p.1 = a ∧ b ∈ p.2

/-- Acyclicity of the `needs` relation: no job depends on itself,
directly or transitively. -/
def AcyclicJobs (g : JobMap) : Prop :=
  ∀ a, ¬ Relation.TransGen (needsRel g) a a

/-- A job is removable in a Kahn round once all of its needs have
already been removed. -/
def removableB (done : List String) (p : String × List String) : Bool :=
  p.2.all (fun b => done.contains b)

/-- Modelled from the spec: the DAG Builder's cycle detection (spec 4.2,
"run cycle detection (e.g., Kahn's algorithm)"); no engine source exists
in the repository.  Each round removes every job whose needs are all
removed; if a round removes nothing while jobs remain, a cycle is
reported (`false`).  Fuel bounds the number of rounds. -/
def kahnLoop : Nat → List String → JobMap → Bool
  | _, _, [] => true
  | 0, _, _ => false
  | fuel + 1, done, pending =>
    if pending.filter (removableB done) = [] then false
    else
      kahnLoop fuel (done ++ (pending.filter (removableB done)).map (fun p => p.1))
        (pending.filter (fun p => !removableB done p))

/-- Modelled from the spec: DAG validation succeeds exactly when the
Kahn peeling removes every job. -/
def validateDAG (g : JobMap) : Bool := kahnLoop g.length [] g

/-- Modelled from the spec: a run is created only from a validated job
map; a cycle is a hard validation error and the run is never created
(spec 4.2). -/
def buildRunGraph (g : JobMap) : Option JobMap :=
  if validateDAG g then some g else none

/- ---------------------------------------------------------------- -/
/- Expression Evaluator (spec 4.3).                                   -/
/- ---------------------------------------------------------------- -/

/-- Evaluated values are strings; the empty string is the defined
"empty" value an undefined variable reference evaluates to (spec 4.3). -/
abbrev Value := String

/-- The variable part of a run context: dotted paths bound to values. -/
abbrev VarMap := List (List String × Value)

/-- Atomic expressions: string literals and dotted variable references. -/
inductive CExpr where
  | lit (s : String)
  | var (path : List String)
deriving DecidableEq

/-- Boolean condition AST with the built-in predicates of spec 4.3
(`always`, `success`, `failure`, `cancelled`).  `successAll` is the
strict `success()` of 4.3 (all dependencies Succeeded);
`needsSatisfied` is the default gate of a job without an explicit
condition, under the default of spec 4.6/9: a Skipped dependency counts
as satisfied-but-not-successful, so it gates only on Failed or
Cancelled dependencies. -/
inductive BExpr where
  | always
  | successAll
  | anyFailed
  | anyCancelled
  | needsSatisfied
  | truthy (e : CExpr)
  | eq (a b : CExpr)
  | ne (a b : CExpr)
  | and (a b : BExpr)
  | or (a b : BExpr)
  | not (a : BExpr)
deriving DecidableEq

/-- Run context a condition is evaluated against: event/output
variables plus the outcomes of the owning job's needs (spec 4.3). -/
structure EvalCtx where
  vars : VarMap
  needsOutcomes : List JobState

/-- Variable lookup in a context. -/
def lookupVar (vs : VarMap) (p : List String) : Option Value :=
  List.lookup p vs

/-- Modelled from the spec: total atomic evaluation; an undefined
variable reference evaluates to the defined empty value "" rather than
throwing (spec 4.3). -/
def evalE (ctx : EvalCtx) : CExpr → Value
  | .lit s => s
  | .var p => (lookupVar ctx.vars p).getD ""

/-- GitHub-expression truthiness of a string value. -/
def valTruthy (v : Value) : Bool := v != "" && v != "false"

/-- Modelled from the spec: total, side-effect-free condition
evaluation against the run context (spec 4.3). -/
def evalB (ctx : EvalCtx) : BExpr → Bool
  | .always => true
  | .successAll => ctx.needsOutcomes.all (fun s => s == .succeeded)
  | .anyFailed => ctx.needsOutcomes.any (fun s => s == .failed)
  | .anyCancelled => ctx.needsOutcomes.any (fun s => s == .cancelled)
  | .needsSatisfied => ctx.needsOutcomes.all (fun s => s == .succeeded || s == .skipped)
  | .truthy e => valTruthy (evalE ctx e)
  | .eq a b => evalE ctx a == evalE ctx b
  | .ne a b => evalE ctx a != evalE ctx b
  | .and a b => evalB ctx a && evalB ctx b
  | .or a b => evalB ctx a || evalB ctx b
  | .not a => !evalB ctx a

/-- The single-quote character used by workflow expression literals. -/
def quoteChar : Char := Char.ofNat 39

/-- Does the second character list start with the first? -/
def startsWithL : List Char → List Char → Bool
  | [], _ => true
  | _ :: _, [] => false
  | a :: as, c :: cc => a == c && startsWithL as cc

/-- Fuelled splitting of a character list on a non-empty separator. -/
def splitOnAuxL (sep : List Char) : Nat → List Char → List Char → List (List Char)
  | 0, acc, cs => [acc.reverse ++ cs]
  | fuel + 1, acc, cs =>
    match cs with
    | [] => [acc.reverse]
    | c :: cc =>
      if startsWithL sep (c :: cc) then
        acc.reverse :: splitOnAuxL sep fuel [] ((c :: cc).drop sep.length)
      else
        splitOnAuxL sep fuel (c :: acc) cc

/-- Split a string on a separator (the whole string when the separator
is empty). -/
def splitOnStr (sep s : String) : List String :=
  match sep.data with
  | [] => [s]
  | _ :: _ => (splitOnAuxL sep.data s.data.length [] s.data).map (fun l => ⟨l⟩)

/-- Strip leading and trailing spaces. -/
def trimL (cs : List Char) : List Char :=
  ((cs.dropWhile (fun c => c == ' ')).reverse.dropWhile (fun c => c == ' ')).reverse

/-- Modelled from the spec: parsing of an atomic expression; the
concrete syntax is the one used by the repository's workflow `if:`
conditions (quoted string literals and dotted variable paths). -/
def parseAtomE (s : String) : Option CExpr :=
  match trimL s.data with
  | [] => none
  | c :: cc =>
    if c == quoteChar then
      match cc.reverse with
      | [] => none
      | r :: rmid =>
        if r == quoteChar && !rmid.any (fun d => d == quoteChar) then
          some (.lit ⟨rmid.reverse⟩)
        else none
    else if (c :: cc) = "true".data then some (.lit "true")
    else if (c :: cc) = "false".data then some (.lit "false")
    else if (c :: cc).any (fun d => d == quoteChar || d == ' ') then none
    else some (.var ((splitOnAuxL ['.'] (c :: cc).length [] (c :: cc)).map (fun l => ⟨l⟩)))

/-- Modelled from the spec: parsing of a comparison or builtin call. -/
def parseCmpB (s : String) : Option BExpr :=
  match splitOnStr " == " s with
  | [a, b] =>
    match parseAtomE a, parseAtomE b with
    | some x, some y => some (.eq x y)
    | _, _ => none
  | [x] =>
    match splitOnStr " != " x with
    | [a, b] =>
      match parseAtomE a, parseAtomE b with
      | some u, some v => some (.ne u v)
      | _, _ => none
    | [y] =>
      let t : String := ⟨trimL y.data⟩
      if t == "always()" then some .always
      else if t == "success()" then some .successAll
      else if t == "failure()" then some .anyFailed
      else if t == "cancelled()" then some .anyCancelled
      else (parseAtomE y).map .truthy
    | _ => none
  | _ => none

/-- Right-associated combination of parsed conjuncts or disjuncts. -/
def combineWith (f : BExpr → BExpr → BExpr) : List BExpr → Option BExpr
  | [] => none
  | [c] => some c
  | c :: rest => (combineWith f rest).map (f c)

/-- Modelled from the spec: parsing of a conjunction. -/
def parseConjB (s : String) : Option BExpr :=
  match (splitOnStr " && " s).mapM parseCmpB with
  | some cs => combineWith .and cs
  | none => none

/-- Modelled from the spec: parsing of a full condition string. -/
def parseCond (s : String) : Option BExpr :=
  match (splitOnStr " || " s).mapM parseConjB with
  | some cs => combineWith .or cs
  | none => none

/-- Modelled from the spec: total evaluation of a condition string; a
malformed condition degrades to false rather than aborting the run
(spec 4.3). -/
def evalCondString (s : String) (ctx : EvalCtx) : Bool :=
  match parseCond s with
  | some c => evalB ctx c
  | none => false

/- ---------------------------------------------------------------- -/
/- Matrix expansion (spec 4.2 step 1, data model invariant).          -/
/- ---------------------------------------------------------------- -/

/-- Matrix axes: axis name mapped to its ordered list of values. -/
abbrev AxisSpec := List (String × List String)

/-- One matrix combination: axis name / value pairs, in axis order. -/
abbrev Combo := List (String × String)

/-- Prepend every (axis, value) choice to every combination. -/
def consAll (ax : String) (vs : List String) (cs : List Combo) : List Combo :=
  match vs with
  | [] => []
  | v :: vt => cs.map (fun c => (ax, v) :: c) ++ consAll ax vt cs

/-- Cartesian product of the axis value sets, in axis order. -/
def axisProduct : AxisSpec → List Combo
  | [] => [[]]
  | (ax, vs) :: rest => consAll ax vs (axisProduct rest)

/-- An `exclude` entry matches a combination when every pair of the
entry occurs in the combination (partial-tuple matching, as used by
advanced-features.yml lines 28-33). -/
def matchesExclude (e : Combo) (c : Combo) : Bool :=
  e.all (fun p => c.contains p)

/-- Modelled from the spec: deterministic matrix expansion; the
generated set equals the Cartesian product of axis values minus any
tuple matching an `exclude` entry (spec data model invariant). -/
def matrixExpand (axes : AxisSpec) (excl : List Combo) : List Combo :=
  (axisProduct axes).filter (fun c => !(excl.any (fun e => matchesExclude e c)))

/-- Stable JobRun name derived from the base job name and the
combination's axis values. -/
def comboName (base : String) (c : Combo) : String :=
  c.foldl (fun acc p => acc ++ "-" ++ p.2) base

/-- Modelled from the spec: the generated JobRuns of a matrix-bearing
JobSpec, each carrying its stable name. -/
def matrixJobRuns (base : String) (axes : AxisSpec) (excl : List Combo) :
    List (String × Combo) :=
  (matrixExpand axes excl).map (fun c => (comboName base c, c))

/-- A combination selects exactly one value per axis, in axis order. -/
def IsSelection : AxisSpec → Combo → Prop
  | [], [] => True
  | (ax, vs) :: rest, (a, v) :: cs => a = ax ∧ v ∈ vs ∧ IsSelection rest cs
  | _, _ => False

/- ---------------------------------------------------------------- -/
/- Scheduler / Execution Controller (spec 4.6, 4.4).                  -/
/- ---------------------------------------------------------------- -/

/-- A realized JobRun node of the live job graph: name, needs edges,
gating condition, and whether the target environment carries a
non-empty approver list (spec 4.4). -/
structure SJob where
  name : String
  needs : List String
  cond : BExpr
  gated : Bool
deriving DecidableEq

/-- Live state table of a RunInstance: job name to JobRun state. -/
abbrev StMap := String → JobState

/-- Point update of the state table. -/
def updateSt (st : StMap) (n : String) (v : JobState) : StMap :=
  fun m => if m = n then v else st m

/-- All needs of the job are in a terminal state. -/
def needsTerminalB (st : StMap) (j : SJob) : Bool :=
  j.needs.all (fun n => (st n).isTerminal)

/-- The context a job's condition is evaluated against: the run's
variables plus the current states of the job's needs. -/
def jobCtx (vars : VarMap) (st : StMap) (j : SJob) : EvalCtx :=
  ⟨vars, j.needs.map st⟩

/-- Initial state of a freshly instantiated run: every JobRun Pending. -/
def initSt : StMap := fun _ => .pending

/-- Modelled from the spec: the scheduler's small-step transitions over
the live state table (spec 4.6 central loop and 4.4 approval gating).
A JobRun enters Ready (or Blocked, when gated) only when all its needs
are terminal and its condition evaluates true; a false condition
transitions it directly to Skipped; Ready jobs are dispatched to
Running; a Running job finishes Succeeded or Failed; a Blocked job is
released to Ready on approval, or Failed on rejection / timeout. -/
inductive SStep (vars : VarMap) (g : List SJob) : StMap → StMap → Prop where
  | toReady (st : StMap) (j : SJob) (hj : j ∈ g) (hsrc : st j.name = .pending)
      (hterm : needsTerminalB st j = true)
      (hcond : evalB (jobCtx vars st j) j.cond = true)
      (hgate : j.gated = false) :
      SStep vars g st (updateSt st j.name .ready)
  | toBlocked (st : StMap) (j : SJob) (hj : j ∈ g) (hsrc : st j.name = .pending)
      (hterm : needsTerminalB st j = true)
      (hcond : evalB (jobCtx vars st j) j.cond = true)
      (hgate : j.gated = true) :
      SStep vars g st (updateSt st j.name .blocked)
  | toSkipped (st : StMap) (j : SJob) (hj : j ∈ g) (hsrc : st j.name = .pending)
      (hterm : needsTerminalB st j = true)
      (hcond : evalB (jobCtx vars st j) j.cond = false) :
      SStep vars g st (updateSt st j.name .skipped)
  | approve (st : StMap) (j : SJob) (hj : j ∈ g) (hsrc : st j.name = .blocked) :
      SStep vars g st (updateSt st j.name .ready)
  | deny (st : StMap) (j : SJob) (hj : j ∈ g) (hsrc : st j.name = .blocked) :
      SStep vars g st (updateSt st j.name .failed)
  | dispatch (st : StMap) (j : SJob) (hj : j ∈ g) (hsrc : st j.name = .ready) :
      SStep vars g st (updateSt st j.name .running)
  | finishOk (st : StMap) (j : SJob) (hj : j ∈ g) (hsrc : st j.name = .running) :
      SStep vars g st (updateSt st j.name .succeeded)
  | finishFail (st : StMap) (j : SJob) (hj : j ∈ g) (hsrc : st j.name = .running) :
      SStep vars g st (updateSt st j.name .failed)

/-- Scheduler invariant: any JobRun that has passed its gate (Ready,
Blocked or Running) did so with all needs terminal and its condition
true; since terminal needs never change state, the recorded evaluation
equals the dispatch-time one. -/
def SchedInv (vars : VarMap) (g : List SJob) (st : StMap) : Prop :=
  ∀ j ∈ g,
    (st j.name = .ready ∨ st j.name = .blocked ∨ st j.name = .running) →
    needsTerminalB st j = true ∧ evalB (jobCtx vars st j) j.cond = true

/-- A job stuck on a false condition: needs all terminal, condition
false, and the job still Pending or already Skipped. -/
def StuckSkip (vars : VarMap) (j : SJob) (st : StMap) : Prop :=
  needsTerminalB st j = true ∧ evalB (jobCtx vars st j) j.cond = false ∧
    (st j.name = .pending ∨ st j.name = .skipped)

/- ---------------------------------------------------------------- -/
/- Artifact & Output Store (spec 4.5).                                -/
/- ---------------------------------------------------------------- -/

/-- Direct needs of a named job in a job map. -/
def needsOf (g : JobMap) (a : String) : List String :=
  match g.find? (fun p => p.1 == a) with
  | some p => p.2
  | none => []

/-- One saturation round of the dependency closure: add the needs of
every known dependency. -/
def closureStep (g : JobMap) (s : Finset String) : Finset String :=
  s ∪ s.biUnion (fun a => (needsOf g a).toFinset)

/-- Every name mentioned by the job map (job names and needs). -/
def depUniverse (g : JobMap) : Finset String :=
  (jobNames g).toFinset ∪ g.foldr (fun p acc => p.2.toFinset ∪ acc) ∅

/-- Modelled from the spec: the set of transitive `needs` dependencies
of a job (spec 4.5 read scope), computed by saturating the direct
needs; `depUniverse.card + 1` rounds suffice for a fixpoint. -/
def transDeps (g : JobMap) (a : String) : Finset String :=
  (closureStep g)^[(depUniverse g).card + 1] (needsOf g a).toFinset

/-- Artifact records are keyed by (run id, producing job, key). -/
structure ArtKey where
  run : String
  job : String
  key : String
deriving DecidableEq

/-- The artifact store of one RunInstance. -/
abbrev Store := List (ArtKey × Value)

/-- Outcome of a write: the new store, or a validation error. -/
inductive WriteResult where
  | ok (st : Store)
  | duplicateWrite
deriving DecidableEq

/-- Modelled from the spec: write-once-per-key semantics; a second
write to the same (run, job, key) triple is a validation error and the
store is not changed (spec 4.5). -/
def writeArtifact (st : Store) (k : ArtKey) (v : Value) : WriteResult :=
  if st.any (fun e => e.1 == k) then .duplicateWrite else .ok ((k, v) :: st)

/-- Outcome of a read: the value, or a failure distinguishing a key
never produced from a producer out of the reader's dependency scope. -/
inductive ReadResult where
  | ok (v : Value)
  | notFound
  | notAuthorized
deriving DecidableEq

/-- Modelled from the spec: a read is satisfied only for keys produced
by a transitive dependency of the reading job; an unproduced key fails
notFound, an out-of-scope one notAuthorized (spec 4.5). -/
def readArtifact (g : JobMap) (st : Store) (runId reader key : String) : ReadResult :=
  let cands := st.filter (fun e => e.1.run == runId && e.1.key == key)
  match cands.find? (fun e => decide (e.1.job ∈ transDeps g reader)) with
  | some e => .ok e.2
  | none => if cands = [] then .notFound else .notAuthorized

/- ---------------------------------------------------------------- -/
/- Rollback Controller (spec 4.7).                                    -/
/- ---------------------------------------------------------------- -/

/-- Rollback bookkeeping: the (run id, environment) pairs with a
rollback JobRun currently in flight. -/
structure RollbackState where
  pendingRb : List (String × String)
deriving DecidableEq

/-- Outcome reported for one observed deploy failure. -/
inductive RbOutcome where
  | enqueued
  | alreadyPending
deriving DecidableEq

/-- Modelled from the spec: on a Failed deploy-role outcome the
controller enqueues one rollback JobRun per (RunInstance, Environment);
a repeat failure while one is in flight is deduplicated and reported as
rollback already pending (spec 4.7). -/
def onDeployFailed (s : RollbackState) (runId env : String) :
    RollbackState × RbOutcome :=
  if (runId, env) ∈ s.pendingRb then (s, .alreadyPending)
  else (⟨(runId, env) :: s.pendingRb⟩, .enqueued)

/-- Sequential processing of a series of observed deploy failures
(atomic per-event transitions, spec 5). -/
def processFailures (s : RollbackState) : List (String × String) → RollbackState × List RbOutcome
  | [] => (s, [])
  | ev :: evs =>
    let r1 := onDeployFailed s ev.1 ev.2
    let rest := processFailures r1.1 evs
    (rest.1, r1.2 :: rest.2)

/-- Number of rollbacks actually enqueued for one (run, environment)
pair across a series of failure events with their outcomes. -/
def countEnqueued (runId env : String) (evs : List (String × String))
    (os : List RbOutcome) : Nat :=
  ((evs.zip os).filter (fun p => p.1 == (runId, env) && p.2 == .enqueued)).length

/- ---------------------------------------------------------------- -/
/- Environment & Approval Gate Manager (spec 4.4).                    -/
/- ---------------------------------------------------------------- -/

/-- ApprovalRequest states (spec data model). -/
inductive ApprovalState where
  | pending
  | approved
  | rejected
  | timedOut
deriving DecidableEq

/-- Gate manager view of one RunInstance: JobRun states, the pending
ApprovalRequest (if any) per owning JobRun, and each request's
absolute timeout deadline (request creation time plus the
Environment's wait duration). -/
structure GateState where
  jobSt : StMap
  apprSt : String → Option ApprovalState
  deadline : String → Nat

/-- Modelled from the spec: when an ApprovalRequest is still Pending
past its Environment's wait duration it transitions to TimedOut and
(fail-closed default) the owning JobRun transitions to Failed; nothing
else changes (spec 4.4). -/
def fireTimeout (s : GateState) (j : String) (now : Nat) : GateState :=
  if s.apprSt j = some .pending ∧ s.deadline j ≤ now then
    { jobSt := updateSt s.jobSt j .failed,
      apprSt := fun k => if k = j then some .timedOut else s.apprSt k,
      deadline := s.deadline }
  else s

/- ---------------------------------------------------------------- -/
/- Embedded workflow documents (ci.yml, action.yml,                   -/
/- dependency-management.yml).                                        -/
/- ---------------------------------------------------------------- -/

/-- Step commands as they appear in the workflow documents: an external
command or action with an environment-determined exit code, an `echo`
(exits 0), or the shell `a || b` composition. -/
inductive ShellCmd where
  | extRun (label : String)
  | echoMsg (msg : String)
  | orElse (a b : ShellCmd)
deriving DecidableEq

/-- Exit code of a step command under an assignment of exit codes to
external commands; `a || b` exits 0 when `a` does, else with `b`'s
code; `echo` exits 0. -/
def exitCode (env : String → Nat) : ShellCmd → Nat
  | .extRun l => env l
  | .echoMsg _ => 0
  | .orElse a b => if exitCode env a = 0 then 0 else exitCode env b

/-- Embedded from ci.yml lines 26-40: the four steps of the lint job;
the lint step is `npm run lint || echo "Linting issues found"`. -/
def ciLintSteps : List ShellCmd :=
  [ .extRun "actions/checkout@v3",
    .extRun "actions/setup-node@v3",
    .extRun "npm ci",
    .orElse (.extRun "npm run lint") (.echoMsg "Linting issues found") ]

/-- Embedded from setup-and-test/action.yml line 51: the composite
action's lint step runs the same guarded command. -/
def compositeLintCmd : ShellCmd :=
  .orElse (.extRun "npm run lint") (.echoMsg "Linting issues found")

/-- Fail-fast job outcome over its steps (spec 4.6): the job succeeds
exactly when every executed step exits 0. -/
def runJobSteps (env : String → Nat) (steps : List ShellCmd) : JobState :=
  if steps.all (fun c => exitCode env c == 0) then .succeeded else .failed

/-- Embedded from ci.yml lines 21-45: the lint job (no `if:`, no needs)
and the test job (`needs: lint`, no `if:`), as scheduler nodes; a job
without an explicit condition carries the default gate. -/
def ciLintJob : SJob := ⟨"lint", [], .needsSatisfied, false⟩

/-- The ci.yml test job node. -/
def ciTestJob : SJob := ⟨"test", ["lint"], .needsSatisfied, false⟩

/-- Embedded from ci.yml lines 86-90: the build job with its explicit
condition on the event name. -/
def ciBuildJob : SJob :=
  ⟨"build", ["test"], .eq (.var ["github", "event_name"]) (.lit "push"), false⟩

/-- The ci.yml job graph. -/
def ciJobs : List SJob := [ciLintJob, ciTestJob, ciBuildJob]

/-- Embedded from dependency-management.yml lines 19-21: the
check_dependencies job declares no job-level `outputs:` block (its
steps set only step-level outputs, lines 36-62). -/
def checkDependenciesOutputs : List (String × Value) := []

/-- Embedded from dependency-management.yml line 76: the `if:`
condition of the update_dependencies job. -/
def updateDependenciesCondStr : String :=
  "needs.check_dependencies.outputs.outdated == \x27true\x27 || needs.check_dependencies.outputs.vulnerable == \x27true\x27"

/-- The parsed form of the update_dependencies condition. -/
def updateDependenciesAst : BExpr :=
  .or (.eq (.var ["needs", "check_dependencies", "outputs", "outdated"]) (.lit "true"))
      (.eq (.var ["needs", "check_dependencies", "outputs", "vulnerable"]) (.lit "true"))

/-- Modelled from the spec: the run context exposes a needed job's
declared job-level outputs under needs.(job).outputs.(key) (spec 4.3,
"declared outputs"). -/
def needsOutputVars (jobName : String) (outs : List (String × Value)) : VarMap :=
  outs.map (fun p => (["needs", jobName, "outputs", p.1], p.2))

/-- The check_dependencies job as a scheduler node. -/
def checkDependenciesJob : SJob := ⟨"check_dependencies", [], .needsSatisfied, false⟩

/-- The update_dependencies job as a scheduler node (needs
check_dependencies, gated by its `if:` condition). -/
def updateDependenciesJob : SJob :=
  ⟨"update_dependencies", ["check_dependencies"], updateDependenciesAst, false⟩

/-- The dependency-management.yml job graph. -/
def depMgmtJobs : List SJob := [checkDependenciesJob, updateDependenciesJob]

/- ---------------------------------------------------------------- -/
/- Theorems.                                                          -/
/- ---------------------------------------------------------------- -/

theorem mem_consAll {ax : String} {vs : List String} {cs : List Combo} {c : Combo} :
    c ∈ consAll ax vs cs ↔ ∃ v ∈ vs, ∃ c0 ∈ cs, c = (ax, v) :: c0 := by
  induction vs with
  | nil => simp [consAll]
  | cons v vt ih =>
    simp only [consAll, List.mem_append, List.mem_map, ih, List.mem_cons]
    constructor
    · rintro (⟨c0, hc0, rfl⟩ | ⟨v1, hv1, c0, hc0, rfl⟩)
      · exact ⟨v, Or.inl rfl, c0, hc0, rfl⟩
      · exact ⟨v1, Or.inr hv1, c0, hc0, rfl⟩
    · rintro ⟨v1, hv1 | hv1, c0, hc0, rfl⟩
      · exact Or.inl ⟨c0, hc0, by rw [hv1]⟩
      · exact Or.inr ⟨v1, hv1, c0, hc0, rfl⟩

theorem mem_axisProduct {axes : AxisSpec} {c : Combo} :
    c ∈ axisProduct axes ↔ IsSelection axes c := by
  induction axes generalizing c with
  | nil => cases c <;> simp [axisProduct, IsSelection]
  | cons p rest ih =>
    obtain ⟨ax, vs⟩ := p
    cases c with
    | nil => simp [axisProduct, mem_consAll, IsSelection]
    | cons q cs =>
      obtain ⟨a, v⟩ := q
      simp only [axisProduct, mem_consAll, IsSelection]
      constructor
      · rintro ⟨v1, hv1, c0, hc0, heq⟩
        obtain ⟨h1, h2⟩ := List.cons.injEq _ _ _ _ ▸ heq
        obtain ⟨ha, hv⟩ := Prod.mk.injEq _ _ _ _ ▸ h1
        subst ha hv h2
        exact ⟨rfl, hv1, ih.mp hc0⟩
      · rintro ⟨rfl, hv, hsel⟩
        exact ⟨v, hv, cs, ih.mpr hsel, rfl⟩

/-- C2: the set of generated JobRuns equals exactly the Cartesian
product of the axis value sets minus every tuple matching an `exclude`
entry, each JobRun carrying a stable name derived from its axis values;
in particular for axes A={a1,a2}, B={b1,b2} and exclude={(a1,b1)}
exactly the 3 JobRuns (a1,b2),(a2,b1),(a2,b2) are generated. -/
theorem matrix_expansion_product_minus_excludes :
    (∀ (axes : AxisSpec) (excl : List Combo) (c : Combo),
      c ∈ matrixExpand axes excl ↔
        (IsSelection axes c ∧ ∀ e ∈ excl, matchesExclude e c = false)) ∧
    matrixJobRuns "job" [("A", ["a1", "a2"]), ("B", ["b1", "b2"])]
        [[("A", "a1"), ("B", "b1")]] =
      [("job-a1-b2", [("A", "a1"), ("B", "b2")]),
       ("job-a2-b1", [("A", "a2"), ("B", "b1")]),
       ("job-a2-b2", [("A", "a2"), ("B", "b2")])] := by
  constructor
  · intro axes excl c
    rw [matrixExpand, List.mem_filter, mem_axisProduct]
    simp [List.any_eq_false]
  · decide

/-- Witness for C2 at the concrete instance of the claim. -/
theorem matrix_expansion_product_minus_excludes_witness :
    ([("A", "a1"), ("B", "b2")] ∈
        matrixExpand [("A", ["a1", "a2"]), ("B", ["b1", "b2"])]
          [[("A", "a1"), ("B", "b1")]] ↔
      (IsSelection [("A", ["a1", "a2"]), ("B", ["b1", "b2"])] [("A", "a1"), ("B", "b2")] ∧
        ∀ e ∈ [[("A", "a1"), ("B", "b1")]],
          matchesExclude e [("A", "a1"), ("B", "b2")] = false)) ∧
    matrixJobRuns "job" [("A", ["a1", "a2"]), ("B", ["b1", "b2"])]
        [[("A", "a1"), ("B", "b1")]] =
      [("job-a1-b2", [("A", "a1"), ("B", "b2")]),
       ("job-a2-b1", [("A", "a2"), ("B", "b1")]),
       ("job-a2-b2", [("A", "a2"), ("B", "b2")])] :=
  ⟨matrix_expansion_product_minus_excludes.1 _ _ _,
   matrix_expansion_product_minus_excludes.2⟩

/-- C5: expression evaluation is total: an undefined variable reference
evaluates to the defined empty value instead of throwing, a malformed
condition string evaluates to false instead of aborting, and every
condition string evaluates to a defined boolean. -/
theorem expression_evaluation_total :
    (∀ (ctx : EvalCtx) (p : List String),
      lookupVar ctx.vars p = none → evalE ctx (.var p) = "") ∧
    (∀ (s : String) (ctx : EvalCtx),
      parseCond s = none → evalCondString s ctx = false) ∧
    (∀ (s : String) (ctx : EvalCtx),
      evalCondString s ctx = true ∨ evalCondString s ctx = false) := by
  refine ⟨?_, ?_, ?_⟩
  · intro ctx p h
    simp [evalE, h]
  · intro s ctx h
    simp [evalCondString, h]
  · intro s ctx
    cases h : evalCondString s ctx
    · exact Or.inr rfl
    · exact Or.inl rfl

/-- Witness for C5: a concrete undefined variable and a concrete
malformed condition string. -/
theorem expression_evaluation_total_witness :
    evalE ⟨[], []⟩ (.var ["x"]) = "" ∧
    evalCondString "x == y == z" ⟨[], []⟩ = false ∧
    (evalCondString "x == y == z" ⟨[], []⟩ = true ∨
      evalCondString "x == y == z" ⟨[], []⟩ = false) :=
  ⟨expression_evaluation_total.1 ⟨[], []⟩ ["x"] rfl,
   expression_evaluation_total.2.1 "x == y == z" ⟨[], []⟩ (by decide),
   expression_evaluation_total.2.2 "x == y == z" ⟨[], []⟩⟩

theorem onDeployFailed_of_mem {s : RollbackState} {r e : String}
    (h : (r, e) ∈ s.pendingRb) : onDeployFailed s r e = (s, .alreadyPending) := by
  unfold onDeployFailed
  rw [if_pos h]

theorem onDeployFailed_of_not_mem {s : RollbackState} {r e : String}
    (h : (r, e) ∉ s.pendingRb) :
    onDeployFailed s r e = (⟨(r, e) :: s.pendingRb⟩, .enqueued) := by
  unfold onDeployFailed
  rw [if_neg h]

theorem pendingRb_mono {s : RollbackState} {x : String × String} (a b : String)
    (hx : x ∈ s.pendingRb) : x ∈ (onDeployFailed s a b).1.pendingRb := by
  unfold onDeployFailed
  split
  · exact hx
  · exact List.mem_cons_of_mem _ hx

theorem countEnqueued_zero {r e : String} :
    ∀ (evs : List (String × String)) (s : RollbackState),
      (r, e) ∈ s.pendingRb → countEnqueued r e evs (processFailures s evs).2 = 0 := by
  intro evs
  induction evs with
  | nil => intro s _; rfl
  | cons ev evs ih =>
    obtain ⟨a, b⟩ := ev
    intro s hmem
    have hmono : (r, e) ∈ (onDeployFailed s a b).1.pendingRb := pendingRb_mono a b hmem
    by_cases hab : (a, b) = ((r, e) : String × String)
    · injection hab with h1 h2
      subst h1
      subst h2
      have hpred : ((((a, b) : String × String) == (a, b)) &&
          ((onDeployFailed s a b).2 == RbOutcome.enqueued)) = false := by
        rw [onDeployFailed_of_mem hmem]
        simp
      simp only [processFailures, countEnqueued, List.zip_cons_cons, List.filter_cons, hpred]
      simp only [Bool.false_eq_true, if_false]
      rw [onDeployFailed_of_mem hmem]
      exact ih s hmem
    · have hpred : ((((a, b) : String × String) == (r, e)) &&
          ((onDeployFailed s a b).2 == RbOutcome.enqueued)) = false := by
        have : (((a, b) : String × String) == (r, e)) = false := by
          simpa using hab
        rw [this]
        simp
      simp only [processFailures, countEnqueued, List.zip_cons_cons, List.filter_cons, hpred]
      simp only [Bool.false_eq_true, if_false]
      exact ih (onDeployFailed s a b).1 hmono

theorem countEnqueued_le_one {r e : String} :
    ∀ (evs : List (String × String)) (s : RollbackState),
      (r, e) ∉ s.pendingRb → countEnqueued r e evs (processFailures s evs).2 ≤ 1 := by
  intro evs
  induction evs with
  | nil => intro s _; exact Nat.zero_le 1
  | cons ev evs ih =>
    obtain ⟨a, b⟩ := ev
    intro s hnot
    by_cases hab : (a, b) = ((r, e) : String × String)
    · injection hab with h1 h2
      subst h1
      subst h2
      have hmem1 : ((a, b) : String × String) ∈
          (RollbackState.mk ((a, b) :: s.pendingRb)).pendingRb :=
        List.mem_cons_self _ _
      have heq := onDeployFailed_of_not_mem hnot
      have h0 := countEnqueued_zero evs (RollbackState.mk ((a, b) :: s.pendingRb)) hmem1
      unfold countEnqueued at h0
      simp only [processFailures, heq, countEnqueued, List.zip_cons_cons, List.filter_cons]
      simp only [beq_self_eq_true, Bool.and_self, if_true, List.length_cons]
      omega
    · have hnot1 : ((r, e) : String × String) ∉ (onDeployFailed s a b).1.pendingRb := by
        unfold onDeployFailed
        split
        · exact hnot
        · intro hc
          rcases List.mem_cons.mp hc with h1 | h1
          · exact hab h1.symm
          · exact hnot h1
      have hpred : ((((a, b) : String × String) == (r, e)) &&
          ((onDeployFailed s a b).2 == RbOutcome.enqueued)) = false := by
        have : (((a, b) : String × String) == (r, e)) = false := by
          simpa using hab
        rw [this]
        simp
      simp only [processFailures, countEnqueued, List.zip_cons_cons, List.filter_cons, hpred]
      simp only [Bool.false_eq_true, if_false]
      exact ih (onDeployFailed s a b).1 hnot1

/-- C7: rollback scheduling is idempotent per (RunInstance,
Environment): a failure enqueues a rollback and marks it in flight, a
second failure for the same pair is reported as already pending and
changes nothing, and across any sequence of deploy failures at most
one rollback is enqueued per pair while one is in flight. -/
theorem rollback_idempotent_per_run_env :
    (∀ (s : RollbackState) (r e : String),
      (r, e) ∈ (onDeployFailed s r e).1.pendingRb) ∧
    (∀ (s : RollbackState) (r e : String),
      onDeployFailed (onDeployFailed s r e).1 r e =
        ((onDeployFailed s r e).1, .alreadyPending)) ∧
    (∀ (s : RollbackState) (r e : String) (evs : List (String × String)),
      (r, e) ∉ s.pendingRb →
      countEnqueued r e evs (processFailures s evs).2 ≤ 1) := by
  have hmem : ∀ (s : RollbackState) (r e : String),
      (r, e) ∈ (onDeployFailed s r e).1.pendingRb := by
    intro s r e
    by_cases h : (r, e) ∈ s.pendingRb
    · rw [onDeployFailed_of_mem h]
      exact h
    · rw [onDeployFailed_of_not_mem h]
      exact List.mem_cons_self _ _
  refine ⟨hmem, ?_, ?_⟩
  · intro s r e
    exact onDeployFailed_of_mem (hmem s r e)
  · intro s r e evs hnot
    exact countEnqueued_le_one evs s hnot

/-- Witness for C7: two consecutive failures for the same pair enqueue
exactly one rollback. -/
theorem rollback_idempotent_per_run_env_witness :
    ((("run1", "prod") ∈ (onDeployFailed ⟨[]⟩ "run1" "prod").1.pendingRb) ∧
      onDeployFailed (onDeployFailed ⟨[]⟩ "run1" "prod").1 "run1" "prod" =
        ((onDeployFailed ⟨[]⟩ "run1" "prod").1, .alreadyPending)) ∧
    countEnqueued "run1" "prod" [("run1", "prod"), ("run1", "prod")]
        (processFailures ⟨[]⟩ [("run1", "prod"), ("run1", "prod")]).2 ≤ 1 :=
  ⟨⟨rollback_idempotent_per_run_env.1 ⟨[]⟩ "run1" "prod",
    rollback_idempotent_per_run_env.2.1 ⟨[]⟩ "run1" "prod"⟩,
   rollback_idempotent_per_run_env.2.2 ⟨[]⟩ "run1" "prod"
     [("run1", "prod"), ("run1", "prod")] (by simp)⟩

/-- C8: an ApprovalRequest left Pending past its deadline transitions
to TimedOut and fails the owning JobRun, while every other JobRun and
ApprovalRequest in the run is unchanged. -/
theorem approval_timeout_frame (s : GateState) (j : String) (now : Nat)
    (hp : s.apprSt j = some .pending) (hd : s.deadline j ≤ now) :
    (fireTimeout s j now).apprSt j = some .timedOut ∧
    (fireTimeout s j now).jobSt j = .failed ∧
    (∀ k, k ≠ j → (fireTimeout s j now).jobSt k = s.jobSt k) ∧
    (∀ k, k ≠ j → (fireTimeout s j now).apprSt k = s.apprSt k) := by
  rw [fireTimeout, if_pos ⟨hp, hd⟩]
  refine ⟨by simp, by simp [updateSt], ?_, ?_⟩
  · intro k hk
    simp [updateSt, hk]
  · intro k hk
    simp [hk]

/-- Witness for C8 at a concrete gate state. -/
theorem approval_timeout_frame_witness :
    (fireTimeout ⟨fun _ => .blocked, fun _ => some .pending, fun _ => 5⟩ "deploy" 10).apprSt
        "deploy" = some .timedOut ∧
    (fireTimeout ⟨fun _ => .blocked, fun _ => some .pending, fun _ => 5⟩ "deploy" 10).jobSt
        "deploy" = .failed ∧
    (∀ k, k ≠ "deploy" →
      (fireTimeout ⟨fun _ => .blocked, fun _ => some .pending, fun _ => 5⟩ "deploy" 10).jobSt k =
        (fun _ => JobState.blocked) k) ∧
    (∀ k, k ≠ "deploy" →
      (fireTimeout ⟨fun _ => .blocked, fun _ => some .pending, fun _ => 5⟩ "deploy" 10).apprSt k =
        (fun _ => some ApprovalState.pending) k) :=
  approval_timeout_frame ⟨fun _ => .blocked, fun _ => some .pending, fun _ => 5⟩ "deploy" 10
    rfl (by decide)

/-- C9: the ci.yml lint step command exits zero for every possible lint
outcome (failures are swallowed by the `|| echo` fallback), so whenever
the lint job's other steps run cleanly the lint job terminates
Succeeded, and the test job's `needs: lint` gate is then satisfied
(its transition to Ready is enabled); the same guarded command appears
in the composite action. -/
theorem ci_lint_gate_never_blocks :
    (∀ env : String → Nat,
      exitCode env (.orElse (.extRun "npm run lint") (.echoMsg "Linting issues found")) = 0) ∧
    (∀ env : String → Nat, exitCode env compositeLintCmd = 0) ∧
    (∀ env : String → Nat,
      env "actions/checkout@v3" = 0 → env "actions/setup-node@v3" = 0 → env "npm ci" = 0 →
      runJobSteps env ciLintSteps = .succeeded) ∧
    (∀ st : StMap, st "lint" = .succeeded → st "test" = .pending →
      SStep [] ciJobs st (updateSt st "test" .ready)) := by
  have h1 : ∀ env : String → Nat,
      exitCode env (.orElse (.extRun "npm run lint") (.echoMsg "Linting issues found")) = 0 := by
    intro env
    simp [exitCode]
  refine ⟨h1, h1, ?_, ?_⟩
  · intro env hc hs hn
    simp [runJobSteps, ciLintSteps, exitCode, hc, hs, hn]
  · intro st hlint htest
    have h2 := @SStep.toReady [] ciJobs st ciTestJob
      (by simp [ciJobs]) htest
      (by simp [needsTerminalB, ciTestJob, hlint, JobState.isTerminal])
      (by simp [jobCtx, evalB, ciTestJob, hlint]; decide)
      rfl
    exact h2

/-- Witness for C9 at a concrete exit-code environment and run state. -/
theorem ci_lint_gate_never_blocks_witness :
    exitCode (fun _ => 0)
        (.orElse (.extRun "npm run lint") (.echoMsg "Linting issues found")) = 0 ∧
    exitCode (fun l => if l = "npm run lint" then 2 else 0) compositeLintCmd = 0 ∧
    runJobSteps (fun l => if l = "npm run lint" then 2 else 0) ciLintSteps = .succeeded ∧
    SStep [] ciJobs (fun n => if n = "lint" then .succeeded else .pending)
      (updateSt (fun n => if n = "lint" then .succeeded else .pending) "test" .ready) :=
  ⟨ci_lint_gate_never_blocks.1 (fun _ => 0),
   ci_lint_gate_never_blocks.2.1 (fun l => if l = "npm run lint" then 2 else 0),
   ci_lint_gate_never_blocks.2.2.1 (fun l => if l = "npm run lint" then 2 else 0)
     (by decide) (by decide) (by decide),
   ci_lint_gate_never_blocks.2.2.2 (fun n => if n = "lint" then .succeeded else .pending)
     (by decide) (by decide)⟩

/- Scheduler lemmas: state updates, frozen terminal needs, invariant.  -/

theorem updateSt_self (st : StMap) (n : String) (v : JobState) :
    updateSt st n v n = v := by
  simp [updateSt]

theorem updateSt_ne (st : StMap) {m n : String} (v : JobState) (h : m ≠ n) :
    updateSt st n v m = st m := by
  simp [updateSt, h]

theorem name_unique {g : List SJob} (hnd : (g.map SJob.name).Nodup) {a b : SJob}
    (ha : a ∈ g) (hb : b ∈ g) (h : a.name = b.name) : a = b := by
  induction g with
  | nil => cases ha
  | cons p t ih =>
    rcases List.mem_cons.mp ha with rfl | ha2
    · rcases List.mem_cons.mp hb with rfl | hb2
      · rfl
      · refine absurd ?_ (List.nodup_cons.mp hnd).1
        rw [h]
        exact List.mem_map_of_mem SJob.name hb2
    · rcases List.mem_cons.mp hb with rfl | hb2
      · refine absurd ?_ (List.nodup_cons.mp hnd).1
        rw [← h]
        exact List.mem_map_of_mem SJob.name ha2
      · exact ih (List.nodup_cons.mp hnd).2 ha2 hb2

theorem needsTerminalB_update_eq {st : StMap} {k : String} {v : JobState} {j : SJob}
    (hk : (st k).isTerminal = false) (ht : needsTerminalB st j = true) :
    needsTerminalB (updateSt st k v) j = true := by
  unfold needsTerminalB at *
  rw [List.all_eq_true] at *
  intro n hn
  have h1 := ht n hn
  simp only at h1 ⊢
  by_cases h : n = k
  · rw [h] at h1
    rw [h1] at hk
    cases hk
  · rw [updateSt_ne st _ h]
    exact h1

theorem jobCtx_update_eq {vars : VarMap} {st : StMap} {k : String} {v : JobState} {j : SJob}
    (hk : (st k).isTerminal = false) (ht : needsTerminalB st j = true) :
    jobCtx vars (updateSt st k v) j = jobCtx vars st j := by
  unfold jobCtx
  congr 1
  apply List.map_congr_left
  intro n hn
  have h1 := List.all_eq_true.mp ht n hn
  simp only at h1
  by_cases h : n = k
  · rw [h] at h1
    rw [h1] at hk
    cases hk
  · exact updateSt_ne st _ h

theorem inv_other {vars : VarMap} {g : List SJob} {st : StMap}
    (hinv : SchedInv vars g st) {k : String} {v : JobState}
    (hk : (st k).isTerminal = false) {j2 : SJob} (hj2 : j2 ∈ g) (hename : j2.name ≠ k)
    (hst2 : updateSt st k v j2.name = .ready ∨ updateSt st k v j2.name = .blocked ∨
      updateSt st k v j2.name = .running) :
    needsTerminalB (updateSt st k v) j2 = true ∧
      evalB (jobCtx vars (updateSt st k v) j2) j2.cond = true := by
  rw [updateSt_ne st _ hename] at hst2
  obtain ⟨h1, h2⟩ := hinv j2 hj2 hst2
  refine ⟨needsTerminalB_update_eq hk h1, ?_⟩
  rw [jobCtx_update_eq hk h1]
  exact h2

theorem inv_acting {vars : VarMap} {st : StMap} {j : SJob} {v : JobState}
    (hk : (st j.name).isTerminal = false) (hterm : needsTerminalB st j = true)
    (hcond : evalB (jobCtx vars st j) j.cond = true) :
    needsTerminalB (updateSt st j.name v) j = true ∧
      evalB (jobCtx vars (updateSt st j.name v) j) j.cond = true := by
  refine ⟨needsTerminalB_update_eq hk hterm, ?_⟩
  rw [jobCtx_update_eq hk hterm]
  exact hcond

theorem schedInv_step {vars : VarMap} {g : List SJob} (hnd : (g.map SJob.name).Nodup)
    {st st' : StMap} (hinv : SchedInv vars g st) (h : SStep vars g st st') :
    SchedInv vars g st' := by
  cases h with
  | toReady j hj hsrc hterm hcond hgate =>
    intro j2 hj2 hst2
    by_cases hename : j2.name = j.name
    · have hj2j : j2 = j := name_unique hnd hj2 hj hename
      subst hj2j
      exact inv_acting (by rw [hsrc]; rfl) hterm hcond
    · exact inv_other hinv (by rw [hsrc]; rfl) hj2 hename hst2
  | toBlocked j hj hsrc hterm hcond hgate =>
    intro j2 hj2 hst2
    by_cases hename : j2.name = j.name
    · have hj2j : j2 = j := name_unique hnd hj2 hj hename
      subst hj2j
      exact inv_acting (by rw [hsrc]; rfl) hterm hcond
    · exact inv_other hinv (by rw [hsrc]; rfl) hj2 hename hst2
  | toSkipped j hj hsrc hterm hcond =>
    intro j2 hj2 hst2
    by_cases hename : j2.name = j.name
    · rw [hename, updateSt_self] at hst2
      rcases hst2 with h2 | h2 | h2 <;> cases h2
    · exact inv_other hinv (by rw [hsrc]; rfl) hj2 hename hst2
  | approve j hj hsrc =>
    intro j2 hj2 hst2
    by_cases hename : j2.name = j.name
    · have hj2j : j2 = j := name_unique hnd hj2 hj hename
      subst hj2j
      obtain ⟨hterm, hcond⟩ := hinv j2 hj2 (Or.inr (Or.inl hsrc))
      exact inv_acting (by rw [hsrc]; rfl) hterm hcond
    · exact inv_other hinv (by rw [hsrc]; rfl) hj2 hename hst2
  | deny j hj hsrc =>
    intro j2 hj2 hst2
    by_cases hename : j2.name = j.name
    · rw [hename, updateSt_self] at hst2
      rcases hst2 with h2 | h2 | h2 <;> cases h2
    · exact inv_other hinv (by rw [hsrc]; rfl) hj2 hename hst2
  | dispatch j hj hsrc =>
    intro j2 hj2 hst2
    by_cases hename : j2.name = j.name
    · have hj2j : j2 = j := name_unique hnd hj2 hj hename
      subst hj2j
      obtain ⟨hterm, hcond⟩ := hinv j2 hj2 (Or.inl hsrc)
      exact inv_acting (by rw [hsrc]; rfl) hterm hcond
    · exact inv_other hinv (by rw [hsrc]; rfl) hj2 hename hst2
  | finishOk j hj hsrc =>
    intro j2 hj2 hst2
    by_cases hename : j2.name = j.name
    · rw [hename, updateSt_self] at hst2
      rcases hst2 with h2 | h2 | h2 <;> cases h2
    · exact inv_other hinv (by rw [hsrc]; rfl) hj2 hename hst2
  | finishFail j hj hsrc =>
    intro j2 hj2 hst2
    by_cases hename : j2.name = j.name
    · rw [hename, updateSt_self] at hst2
      rcases hst2 with h2 | h2 | h2 <;> cases h2
    · exact inv_other hinv (by rw [hsrc]; rfl) hj2 hename hst2

theorem schedInv_reachable {vars : VarMap} {g : List SJob}
    (hnd : (g.map SJob.name).Nodup) {s : StMap}
    (hreach : Relation.ReflTransGen (SStep vars g) initSt s) : SchedInv vars g s := by
  induction hreach with
  | refl =>
    intro j hj hst
    rcases hst with h | h | h <;> exact absurd h (by simp [initSt])
  | tail hsteps hstep ih => exact schedInv_step hnd ih hstep

/-- C3: in every reachable state of a run, every Running JobRun has all
its needs in a terminal state and its condition true against the run
context (terminal needs never change state again, so this equals the
dispatch-time evaluation); the gate invariant is preserved by every
scheduler transition. -/
theorem scheduler_running_needs_terminal (vars : VarMap) (g : List SJob)
    (hnd : (g.map SJob.name).Nodup) (s : StMap)
    (hreach : Relation.ReflTransGen (SStep vars g) initSt s) :
    (∀ j ∈ g, s j.name = .running →
      needsTerminalB s j = true ∧ evalB (jobCtx vars s j) j.cond = true) ∧
    (∀ t t' : StMap, SchedInv vars g t → SStep vars g t t' → SchedInv vars g t') := by
  refine ⟨?_, fun t t' hi hs => schedInv_step hnd hi hs⟩
  intro j hj hrun
  exact schedInv_reachable hnd hreach j hj (Or.inr (Or.inr hrun))

/-- Witness for C3: a two-job pipeline where the second job is Running
after its need finished. -/
theorem scheduler_running_needs_terminal_witness :
    needsTerminalB
      (updateSt (updateSt (updateSt (updateSt (updateSt initSt "a" .ready) "a" .running)
        "a" .succeeded) "b" .ready) "b" .running)
      ⟨"b", ["a"], .needsSatisfied, false⟩ = true ∧
    evalB (jobCtx []
      (updateSt (updateSt (updateSt (updateSt (updateSt initSt "a" .ready) "a" .running)
        "a" .succeeded) "b" .ready) "b" .running)
      ⟨"b", ["a"], .needsSatisfied, false⟩) .needsSatisfied = true := by
  have hreach : Relation.ReflTransGen
      (SStep [] [⟨"a", [], .always, false⟩, ⟨"b", ["a"], .needsSatisfied, false⟩]) initSt
      (updateSt (updateSt (updateSt (updateSt (updateSt initSt "a" .ready) "a" .running)
        "a" .succeeded) "b" .ready) "b" .running) := by
    have h1 : SStep [] [⟨"a", [], .always, false⟩, ⟨"b", ["a"], .needsSatisfied, false⟩]
        initSt (updateSt initSt "a" .ready) :=
      SStep.toReady initSt ⟨"a", [], .always, false⟩ (by decide) rfl (by decide) (by decide) rfl
    have h2 : SStep [] [⟨"a", [], .always, false⟩, ⟨"b", ["a"], .needsSatisfied, false⟩]
        (updateSt initSt "a" .ready) (updateSt (updateSt initSt "a" .ready) "a" .running) :=
      SStep.dispatch _ ⟨"a", [], .always, false⟩ (by decide) (by decide)
    have h3 : SStep [] [⟨"a", [], .always, false⟩, ⟨"b", ["a"], .needsSatisfied, false⟩]
        (updateSt (updateSt initSt "a" .ready) "a" .running)
        (updateSt (updateSt (updateSt initSt "a" .ready) "a" .running) "a" .succeeded) :=
      SStep.finishOk _ ⟨"a", [], .always, false⟩ (by decide) (by decide)
    have h4 : SStep [] [⟨"a", [], .always, false⟩, ⟨"b", ["a"], .needsSatisfied, false⟩]
        (updateSt (updateSt (updateSt initSt "a" .ready) "a" .running) "a" .succeeded)
        (updateSt (updateSt (updateSt (updateSt initSt "a" .ready) "a" .running)
          "a" .succeeded) "b" .ready) :=
      SStep.toReady _ ⟨"b", ["a"], .needsSatisfied, false⟩ (by decide) (by decide)
        (by decide) (by decide) rfl
    have h5 : SStep [] [⟨"a", [], .always, false⟩, ⟨"b", ["a"], .needsSatisfied, false⟩]
        (updateSt (updateSt (updateSt (updateSt initSt "a" .ready) "a" .running)
          "a" .succeeded) "b" .ready)
        (updateSt (updateSt (updateSt (updateSt (updateSt initSt "a" .ready) "a" .running)
          "a" .succeeded) "b" .ready) "b" .running) :=
      SStep.dispatch _ ⟨"b", ["a"], .needsSatisfied, false⟩ (by decide) (by decide)
    exact Relation.ReflTransGen.tail (Relation.ReflTransGen.tail (Relation.ReflTransGen.tail
      (Relation.ReflTransGen.tail (Relation.ReflTransGen.single h1) h2) h3) h4) h5
  exact (scheduler_running_needs_terminal []
    [⟨"a", [], .always, false⟩, ⟨"b", ["a"], .needsSatisfied, false⟩] (by decide) _ hreach).1
    ⟨"b", ["a"], .needsSatisfied, false⟩ (by decide) (by decide)

theorem stuckSkip_step {vars : VarMap} {g : List SJob} (hnd : (g.map SJob.name).Nodup)
    {j : SJob} (hj : j ∈ g) {st st' : StMap} (h : SStep vars g st st')
    (hs : StuckSkip vars j st) : StuckSkip vars j st' := by
  obtain ⟨hterm, hcond, hstate⟩ := hs
  have frame : ∀ (a : SJob) (v : JobState), a ∈ g → (st a.name).isTerminal = false →
      j.name ≠ a.name → StuckSkip vars j (updateSt st a.name v) := by
    intro a v _ hk hne
    refine ⟨needsTerminalB_update_eq hk hterm, ?_, ?_⟩
    · rw [jobCtx_update_eq hk hterm]
      exact hcond
    · rw [updateSt_ne st _ hne]
      exact hstate
  cases h with
  | toReady a ha hsrc hterm2 hcond2 hgate =>
    by_cases hename : j.name = a.name
    · have hja : j = a := name_unique hnd hj ha hename
      subst hja
      rw [hcond] at hcond2
      cases hcond2
    · exact frame a _ ha (by rw [hsrc]; rfl) hename
  | toBlocked a ha hsrc hterm2 hcond2 hgate =>
    by_cases hename : j.name = a.name
    · have hja : j = a := name_unique hnd hj ha hename
      subst hja
      rw [hcond] at hcond2
      cases hcond2
    · exact frame a _ ha (by rw [hsrc]; rfl) hename
  | toSkipped a ha hsrc hterm2 hcond2 =>
    by_cases hename : j.name = a.name
    · have hja : j = a := name_unique hnd hj ha hename
      subst hja
      refine ⟨needsTerminalB_update_eq (by rw [hsrc]; rfl) hterm, ?_, ?_⟩
      · rw [jobCtx_update_eq (by rw [hsrc]; rfl) hterm]
        exact hcond
      · rw [updateSt_self]
        exact Or.inr rfl
    · exact frame a _ ha (by rw [hsrc]; rfl) hename
  | approve a ha hsrc =>
    by_cases hename : j.name = a.name
    · have hja : j = a := name_unique hnd hj ha hename
      subst hja
      rcases hstate with h1 | h1 <;> rw [hsrc] at h1 <;> cases h1
    · exact frame a _ ha (by rw [hsrc]; rfl) hename
  | deny a ha hsrc =>
    by_cases hename : j.name = a.name
    · have hja : j = a := name_unique hnd hj ha hename
      subst hja
      rcases hstate with h1 | h1 <;> rw [hsrc] at h1 <;> cases h1
    · exact frame a _ ha (by rw [hsrc]; rfl) hename
  | dispatch a ha hsrc =>
    by_cases hename : j.name = a.name
    · have hja : j = a := name_unique hnd hj ha hename
      subst hja
      rcases hstate with h1 | h1 <;> rw [hsrc] at h1 <;> cases h1
    · exact frame a _ ha (by rw [hsrc]; rfl) hename
  | finishOk a ha hsrc =>
    by_cases hename : j.name = a.name
    · have hja : j = a := name_unique hnd hj ha hename
      subst hja
      rcases hstate with h1 | h1 <;> rw [hsrc] at h1 <;> cases h1
    · exact frame a _ ha (by rw [hsrc]; rfl) hename
  | finishFail a ha hsrc =>
    by_cases hename : j.name = a.name
    · have hja : j = a := name_unique hnd hj ha hename
      subst hja
      rcases hstate with h1 | h1 <;> rw [hsrc] at h1 <;> cases h1
    · exact frame a _ ha (by rw [hsrc]; rfl) hename

theorem stuckSkip_reach {vars : VarMap} {g : List SJob} (hnd : (g.map SJob.name).Nodup)
    {j : SJob} (hj : j ∈ g) {st s' : StMap}
    (hreach : Relation.ReflTransGen (SStep vars g) st s') (hs : StuckSkip vars j st) :
    StuckSkip vars j s' := by
  induction hreach with
  | refl => exact hs
  | tail hsteps hstep ih => exact stuckSkip_step hnd hj hstep ih

/-- C4: a JobRun whose condition evaluates false once all its needs are
terminal is transitioned to Skipped by the scheduler and can never
reach Failed (nor Running) in any later state; Skipped is terminal for
downstream dependency checks; and a downstream job with a plain `needs`
edge (default gate, no explicit condition) on the skipped job is not
blocked: its transition to Ready is enabled once its other needs are
Succeeded or Skipped. -/
theorem cond_false_skips_never_fails (vars : VarMap) (g : List SJob)
    (hnd : (g.map SJob.name).Nodup) (j : SJob) (hj : j ∈ g) (st : StMap)
    (hpend : st j.name = .pending) (hterm : needsTerminalB st j = true)
    (hcond : evalB (jobCtx vars st j) j.cond = false) :
    SStep vars g st (updateSt st j.name .skipped) ∧
    (∀ s', Relation.ReflTransGen (SStep vars g) st s' →
      s' j.name = .pending ∨ s' j.name = .skipped) ∧
    JobState.skipped.isTerminal = true ∧
    (∀ d, d ∈ g → d.cond = .needsSatisfied → d.gated = false → d.name ≠ j.name →
      st d.name = .pending →
      (∀ n ∈ d.needs, n = j.name ∨ st n = .succeeded ∨ st n = .skipped) →
      SStep vars g (updateSt st j.name .skipped)
        (updateSt (updateSt st j.name .skipped) d.name .ready)) := by
  refine ⟨SStep.toSkipped st j hj hpend hterm hcond, ?_, rfl, ?_⟩
  · intro s' hreach
    exact (stuckSkip_reach hnd hj hreach ⟨hterm, hcond, Or.inl hpend⟩).2.2
  · intro d hd hdc hdg hdn hdp hneeds
    have hterm2 : needsTerminalB (updateSt st j.name .skipped) d = true := by
      unfold needsTerminalB
      rw [List.all_eq_true]
      intro n hn
      by_cases hnj : n = j.name
      · rw [hnj, updateSt_self]
        rfl
      · rcases hneeds n hn with h | h | h
        · exact absurd h hnj
        · rw [updateSt_ne st _ hnj, h]
          rfl
        · rw [updateSt_ne st _ hnj, h]
          rfl
    have hcond2 : evalB (jobCtx vars (updateSt st j.name .skipped) d) d.cond = true := by
      rw [hdc]
      simp only [evalB, jobCtx]
      rw [List.all_eq_true]
      intro x hx
      obtain ⟨n, hn, rfl⟩ := List.mem_map.mp hx
      by_cases hnj : n = j.name
      · rw [hnj, updateSt_self]
        decide
      · rcases hneeds n hn with h | h | h
        · exact absurd h hnj
        · rw [updateSt_ne st _ hnj, h]
          decide
        · rw [updateSt_ne st _ hnj, h]
          decide
    have hsrc2 : updateSt st j.name .skipped d.name = .pending := by
      rw [updateSt_ne st _ hdn]
      exact hdp
    exact SStep.toReady (updateSt st j.name .skipped) d hd hsrc2 hterm2 hcond2 hdg

/-- Witness for C4: a three-job pipeline where job j's condition is
false (an undefined variable), j is skipped, and downstream d with a
plain needs edge on j can still become Ready. -/
theorem cond_false_skips_never_fails_witness :
    SStep [] [⟨"a", [], .always, false⟩, ⟨"j", ["a"], .truthy (.var ["flag"]), false⟩,
        ⟨"d", ["a", "j"], .needsSatisfied, false⟩]
      (fun n => if n = "a" then .succeeded else .pending)
      (updateSt (fun n => if n = "a" then .succeeded else .pending) "j" .skipped) ∧
    (∀ s', Relation.ReflTransGen
        (SStep [] [⟨"a", [], .always, false⟩, ⟨"j", ["a"], .truthy (.var ["flag"]), false⟩,
          ⟨"d", ["a", "j"], .needsSatisfied, false⟩])
        (fun n => if n = "a" then .succeeded else .pending) s' →
      s' "j" = .pending ∨ s' "j" = .skipped) ∧
    JobState.skipped.isTerminal = true ∧
    (∀ d : SJob, d ∈ [⟨"a", [], .always, false⟩, ⟨"j", ["a"], .truthy (.var ["flag"]), false⟩,
        ⟨"d", ["a", "j"], .needsSatisfied, false⟩] → d.cond = .needsSatisfied →
      d.gated = false → d.name ≠ "j" →
      (fun n => if n = "a" then JobState.succeeded else .pending) d.name = .pending →
      (∀ n ∈ d.needs, n = "j" ∨
        (fun n => if n = "a" then JobState.succeeded else .pending) n = .succeeded ∨
        (fun n => if n = "a" then JobState.succeeded else .pending) n = .skipped) →
      SStep [] [⟨"a", [], .always, false⟩, ⟨"j", ["a"], .truthy (.var ["flag"]), false⟩,
          ⟨"d", ["a", "j"], .needsSatisfied, false⟩]
        (updateSt (fun n => if n = "a" then .succeeded else .pending) "j" .skipped)
        (updateSt (updateSt (fun n => if n = "a" then .succeeded else .pending) "j" .skipped)
          d.name .ready)) :=
  cond_false_skips_never_fails []
    [⟨"a", [], .always, false⟩, ⟨"j", ["a"], .truthy (.var ["flag"]), false⟩,
      ⟨"d", ["a", "j"], .needsSatisfied, false⟩]
    (by decide) ⟨"j", ["a"], .truthy (.var ["flag"]), false⟩
    (by decide) (fun n => if n = "a" then .succeeded else .pending) (by decide) (by decide)
    (by decide)

/-- C10: the update_dependencies `if:` condition references
needs.check_dependencies.outputs, but check_dependencies declares no
job-level outputs, so under total evaluation both references are empty,
the condition is false on every run, and update_dependencies is always
transitioned to Skipped and can never run. -/
theorem update_dependencies_always_skipped :
    parseCond updateDependenciesCondStr = some updateDependenciesAst ∧
    (∀ (vs : VarMap) (ns : List JobState),
      lookupVar vs ["needs", "check_dependencies", "outputs", "outdated"] = none →
      lookupVar vs ["needs", "check_dependencies", "outputs", "vulnerable"] = none →
      evalB ⟨vs, ns⟩ updateDependenciesAst = false) ∧
    (∀ ns : List JobState,
      evalB ⟨needsOutputVars "check_dependencies" checkDependenciesOutputs, ns⟩
        updateDependenciesAst = false) ∧
    (∀ (vs : VarMap) (st : StMap),
      lookupVar vs ["needs", "check_dependencies", "outputs", "outdated"] = none →
      lookupVar vs ["needs", "check_dependencies", "outputs", "vulnerable"] = none →
      st "update_dependencies" = .pending →
      needsTerminalB st updateDependenciesJob = true →
      SStep vs depMgmtJobs st (updateSt st "update_dependencies" .skipped) ∧
      (∀ s', Relation.ReflTransGen (SStep vs depMgmtJobs) st s' →
        s' "update_dependencies" = .pending ∨ s' "update_dependencies" = .skipped)) := by
  have hgen : ∀ (vs : VarMap) (ns : List JobState),
      lookupVar vs ["needs", "check_dependencies", "outputs", "outdated"] = none →
      lookupVar vs ["needs", "check_dependencies", "outputs", "vulnerable"] = none →
      evalB ⟨vs, ns⟩ updateDependenciesAst = false := by
    intro vs ns h1 h2
    simp [updateDependenciesAst, evalB, evalE, h1, h2]
  refine ⟨by decide, hgen, fun ns => hgen _ ns rfl rfl, ?_⟩
  intro vs st h1 h2 hp ht
  have hcond : evalB (jobCtx vs st updateDependenciesJob) updateDependenciesJob.cond
      = false := hgen vs _ h1 h2
  refine ⟨SStep.toSkipped st updateDependenciesJob (by decide) hp ht hcond, ?_⟩
  intro s' hreach
  exact (@stuckSkip_reach vs depMgmtJobs (by decide) updateDependenciesJob (by decide)
    st s' hreach ⟨ht, hcond, Or.inl hp⟩).2.2

/-- Witness for C10 at a concrete run state where check_dependencies
has Succeeded. -/
theorem update_dependencies_always_skipped_witness :
    SStep [] depMgmtJobs (fun n => if n = "check_dependencies" then .succeeded else .pending)
      (updateSt (fun n => if n = "check_dependencies" then .succeeded else .pending)
        "update_dependencies" .skipped) ∧
    evalB ⟨needsOutputVars "check_dependencies" checkDependenciesOutputs, [.succeeded]⟩
      updateDependenciesAst = false :=
  ⟨(update_dependencies_always_skipped.2.2.2 []
      (fun n => if n = "check_dependencies" then .succeeded else .pending)
      rfl rfl (by decide) (by decide)).1,
   update_dependencies_always_skipped.2.2.1 [.succeeded]⟩

/- DAG Builder lemmas: accessibility, pigeonhole cycle, Kahn rounds.   -/

theorem acc_not_self {α : Type} {q : α → α → Prop} {a : α} (h : Acc q a) : ¬ q a a := by
  induction h with
  | intro x hx ih => exact fun hq => ih x hq hq

theorem acc_transGen {α : Type} {r : α → α → Prop} {a : α} (h : Acc r a) :
    Acc (Relation.TransGen r) a := by
  induction h with
  | intro x hx ih =>
    refine Acc.intro x fun y hy => ?_
    cases hy with
    | single h1 => exact ih y h1
    | tail h2 h3 => exact (ih _ h3).inv h2

theorem transGen_flip {α : Type} {r : α → α → Prop} {a b : α}
    (h : Relation.TransGen r a b) : Relation.TransGen (fun x y => r y x) b a := by
  induction h with
  | single h1 => exact Relation.TransGen.single h1
  | @tail b c h2 h3 ih => exact Relation.TransGen.head h3 ih

theorem transGen_first_edge {α : Type} {R : α → α → Prop} {a c : α}
    (h : Relation.TransGen R a c) : ∃ b, R a b := by
  induction h with
  | single h1 => exact ⟨_, h1⟩
  | tail h1 h2 ih => exact ih

theorem cycle_of_stuck {α : Type} {R : α → α → Prop} (S : List α) (hne : S ≠ [])
    (hstep : ∀ a ∈ S, ∃ b, b ∈ S ∧ R a b) : ∃ a, Relation.TransGen R a a := by
  classical
  have hf : ∀ x : {a // a ∈ S}, ∃ y : {a // a ∈ S}, R x.1 y.1 := by
    intro x
    obtain ⟨b, hb, hr⟩ := hstep x.1 x.2
    exact ⟨⟨b, hb⟩, hr⟩
  choose f hf2 using hf
  obtain ⟨a0, ha0⟩ : ∃ a, a ∈ S := List.exists_mem_of_ne_nil S hne
  haveI hfin : Finite {a // a ∈ S} := S.finite_toSet.to_subtype
  have hstep2 : ∀ n : ℕ, R (f^[n] ⟨a0, ha0⟩).1 (f^[n + 1] ⟨a0, ha0⟩).1 := by
    intro n
    have hgs : f^[n + 1] ⟨a0, ha0⟩ = f (f^[n] ⟨a0, ha0⟩) :=
      Function.iterate_succ_apply' f n ⟨a0, ha0⟩
    rw [hgs]
    exact hf2 (f^[n] ⟨a0, ha0⟩)
  have hchain : ∀ m k : ℕ,
      Relation.TransGen R (f^[m] ⟨a0, ha0⟩).1 (f^[m + k + 1] ⟨a0, ha0⟩).1 := by
    intro m k
    induction k with
    | zero => exact Relation.TransGen.single (hstep2 m)
    | succ k ih =>
      have harith : m + (k + 1) + 1 = (m + k + 1) + 1 := by omega
      rw [harith]
      exact Relation.TransGen.tail ih (hstep2 (m + k + 1))
  obtain ⟨i, j, hij, heq⟩ :=
    Finite.exists_ne_map_eq_of_infinite (fun n : ℕ => f^[n] ⟨a0, ha0⟩)
  rcases Nat.lt_or_ge i j with hlt | hge
  · refine ⟨(f^[i] ⟨a0, ha0⟩).1, ?_⟩
    have h1 := hchain i (j - i - 1)
    have harith : i + (j - i - 1) + 1 = j := by omega
    rw [harith] at h1
    rw [← heq] at h1
    exact h1
  · have hlt2 : j < i := lt_of_le_of_ne hge (Ne.symm hij)
    refine ⟨(f^[j] ⟨a0, ha0⟩).1, ?_⟩
    have h1 := hchain j (i - j - 1)
    have harith : j + (i - j - 1) + 1 = i := by omega
    rw [harith] at h1
    rw [heq] at h1
    exact h1

theorem key_unique {β : Type} {g : List (String × β)}
    (hnd : (g.map (fun p => p.1)).Nodup) {a b : String × β}
    (ha : a ∈ g) (hb : b ∈ g) (h : a.1 = b.1) : a = b := by
  induction g with
  | nil => cases ha
  | cons p t ih =>
    rcases List.mem_cons.mp ha with rfl | ha2
    · rcases List.mem_cons.mp hb with rfl | hb2
      · rfl
      · refine absurd ?_ (List.nodup_cons.mp hnd).1
        show a.1 ∈ List.map (fun p => p.1) t
        rw [h]
        exact List.mem_map_of_mem (fun p => p.1) hb2
    · rcases List.mem_cons.mp hb with rfl | hb2
      · refine absurd ?_ (List.nodup_cons.mp hnd).1
        show b.1 ∈ List.map (fun p => p.1) t
        rw [← h]
        exact List.mem_map_of_mem (fun p => p.1) ha2
      · exact ih (List.nodup_cons.mp hnd).2 ha2 hb2

theorem kahn_acc {g : JobMap} (hnd : (jobNames g).Nodup) :
    ∀ (fuel : Nat) (done : List String) (pending : JobMap),
      (∀ p ∈ pending, p ∈ g) →
      (∀ d ∈ done, Acc (fun b a => needsRel g a b) d) →
      kahnLoop fuel done pending = true →
      ∀ p ∈ pending, Acc (fun b a => needsRel g a b) p.1 := by
  intro fuel
  induction fuel with
  | zero =>
    intro done pending hsub hdone hk p hp
    cases pending with
    | nil => cases hp
    | cons q qs => simp [kahnLoop] at hk
  | succ fuel ih =>
    intro done pending hsub hdone hk p hp
    cases pending with
    | nil => cases hp
    | cons q qs =>
      simp only [kahnLoop] at hk
      by_cases hrs : (q :: qs).filter (removableB done) = []
      · rw [if_pos hrs] at hk
        cases hk
      · rw [if_neg hrs] at hk
        have hremAcc : ∀ x ∈ (q :: qs).filter (removableB done),
            Acc (fun b a => needsRel g a b) x.1 := by
          intro x hx
          have hxg : x ∈ g := hsub x (List.mem_of_mem_filter hx)
          have hxr : removableB done x = true := List.of_mem_filter hx
          refine Acc.intro x.1 fun b hb => ?_
          obtain ⟨q2, hq2g, hq2n, hbq2⟩ := hb
          have hq2x : q2 = x := key_unique hnd hq2g hxg hq2n
          rw [hq2x] at hbq2
          have hbdone : b ∈ done := by
            have h1 := List.all_eq_true.mp hxr b hbq2
            simpa [List.elem_iff] using h1
          exact hdone b hbdone
        have hsub2 : ∀ p2 ∈ (q :: qs).filter (fun p => !removableB done p), p2 ∈ g :=
          fun p2 hp2 => hsub p2 (List.mem_of_mem_filter hp2)
        have hdone2 : ∀ d ∈ done ++ ((q :: qs).filter (removableB done)).map (fun p => p.1),
            Acc (fun b a => needsRel g a b) d := by
          intro d hd
          rcases List.mem_append.mp hd with h1 | h1
          · exact hdone d h1
          · obtain ⟨x, hx, rfl⟩ := List.mem_map.mp h1
            exact hremAcc x hx
        have hall := ih _ _ hsub2 hdone2 hk
        by_cases hpr : removableB done p = true
        · exact hremAcc p (List.mem_filter.mpr ⟨hp, hpr⟩)
        · refine hall p (List.mem_filter.mpr ⟨hp, ?_⟩)
          revert hpr
          cases removableB done p <;> simp
    
theorem validate_acyclic {g : JobMap} (hnd : (jobNames g).Nodup)
    (hv : validateDAG g = true) : AcyclicJobs g := by
  intro a htg
  obtain ⟨b, hb⟩ := transGen_first_edge htg
  obtain ⟨p, hpg, hpn, _⟩ := hb
  have hacc : Acc (fun b a => needsRel g a b) a := by
    have h1 := kahn_acc hnd g.length [] g (fun p2 hp2 => hp2)
      (fun d hd => absurd hd (List.not_mem_nil d)) hv p hpg
    rw [hpn] at h1
    exact h1
  exact acc_not_self (acc_transGen hacc) (transGen_flip htg)

theorem kahn_stuck {g : JobMap}
    (hclosed : ∀ p ∈ g, ∀ b ∈ p.2, b ∈ jobNames g) :
    ∀ (fuel : Nat) (done : List String) (pending : JobMap),
      (∀ p ∈ pending, p ∈ g) →
      (∀ n ∈ jobNames g, n ∈ done ∨ n ∈ pending.map (fun p => p.1)) →
      pending.length ≤ fuel →
      kahnLoop fuel done pending = false →
      ∃ a, Relation.TransGen (needsRel g) a a := by
  intro fuel
  induction fuel with
  | zero =>
    intro done pending hsub hcov hlen hk
    cases pending with
    | nil => simp [kahnLoop] at hk
    | cons q qs => simp at hlen
  | succ fuel ih =>
    intro done pending hsub hcov hlen hk
    cases pending with
    | nil => simp [kahnLoop] at hk
    | cons q qs =>
      simp only [kahnLoop] at hk
      by_cases hrs : (q :: qs).filter (removableB done) = []
      · clear hk
        have hSne : (q :: qs).map (fun p => p.1) ≠ [] := by simp
        have hstepS : ∀ a ∈ (q :: qs).map (fun p => p.1),
            ∃ b, b ∈ (q :: qs).map (fun p => p.1) ∧ needsRel g a b := by
          intro a haS
          obtain ⟨p, hp, rfl⟩ := List.mem_map.mp haS
          have hpnr : removableB done p = false := by
            by_cases hc : removableB done p = true
            · exfalso
              have hmem : p ∈ (q :: qs).filter (removableB done) :=
                List.mem_filter.mpr ⟨hp, hc⟩
              rw [hrs] at hmem
              cases hmem
            · revert hc
              cases removableB done p <;> simp
          obtain ⟨b, hbp, hbd⟩ : ∃ b ∈ p.2, ¬ done.contains b = true := by
            have h1 : p.2.all (fun b => done.contains b) = false := hpnr
            exact List.all_eq_false.mp h1
          have hbnames : b ∈ jobNames g := hclosed p (hsub p hp) b hbp
          have hbdone : b ∉ done := by
            intro hc
            exact hbd (by simpa [List.elem_iff] using hc)
          rcases hcov b hbnames with h1 | h1
          · exact absurd h1 hbdone
          · exact ⟨b, h1, ⟨p, hsub p hp, rfl, hbp⟩⟩
        exact cycle_of_stuck _ hSne hstepS
      · rw [if_neg hrs] at hk
        have hsub2 : ∀ p2 ∈ (q :: qs).filter (fun p => !removableB done p), p2 ∈ g :=
          fun p2 hp2 => hsub p2 (List.mem_of_mem_filter hp2)
        have hcov2 : ∀ n ∈ jobNames g,
            n ∈ done ++ ((q :: qs).filter (removableB done)).map (fun p => p.1) ∨
            n ∈ ((q :: qs).filter (fun p => !removableB done p)).map (fun p => p.1) := by
          intro n hn
          rcases hcov n hn with h1 | h1
          · exact Or.inl (List.mem_append_left _ h1)
          · obtain ⟨p, hp, rfl⟩ := List.mem_map.mp h1
            by_cases hr : removableB done p = true
            · refine Or.inl (List.mem_append_right _ ?_)
              exact List.mem_map_of_mem _ (List.mem_filter.mpr ⟨hp, hr⟩)
            · refine Or.inr (List.mem_map_of_mem _ (List.mem_filter.mpr ⟨hp, ?_⟩))
              revert hr
              cases removableB done p <;> simp
        have hlen2 : ((q :: qs).filter (fun p => !removableB done p)).length ≤ fuel := by
          obtain ⟨x, hx⟩ := List.exists_mem_of_ne_nil _ hrs
          have hxl : x ∈ q :: qs := List.mem_of_mem_filter hx
          have hxr : removableB done x = true := List.of_mem_filter hx
          have hlt : ((q :: qs).filter (fun p => !removableB done p)).length <
              (q :: qs).length := by
            refine List.length_filter_lt_length_iff_exists.mpr ⟨x, hxl, ?_⟩
            simp [hxr]
          have hlen1 : (q :: qs).length ≤ fuel + 1 := hlen
          omega
        exact ih _ _ hsub2 hcov2 hlen2 hk

/-- C1: the DAG Builder accepts a well-formed job map (unique job
names, needs referencing declared jobs) exactly when the `needs`
relation is acyclic, and a RunInstance graph is produced exactly for
accepted maps: a cyclic map is rejected and no run is created, an
acyclic one is accepted. -/
theorem dag_builder_accepts_iff_acyclic (g : JobMap)
    (hnd : (jobNames g).Nodup)
    (hclosed : ∀ p ∈ g, ∀ b ∈ p.2, b ∈ jobNames g) :
    (validateDAG g = true ↔ AcyclicJobs g) ∧
    (buildRunGraph g = none ↔ ¬ AcyclicJobs g) := by
  have hiff : validateDAG g = true ↔ AcyclicJobs g := by
    constructor
    · exact validate_acyclic hnd
    · intro hac
      by_contra hv
      have hv2 : validateDAG g = false := by
        cases h : validateDAG g
        · rfl
        · exact absurd h hv
      obtain ⟨a, ha⟩ := kahn_stuck hclosed g.length [] g (fun p hp => hp)
        (fun n hn => Or.inr hn) (le_refl _) hv2
      exact hac a ha
  refine ⟨hiff, ?_⟩
  unfold buildRunGraph
  constructor
  · intro hnone hac
    rw [if_pos (hiff.mpr hac)] at hnone
    cases hnone
  · intro hnac
    rw [if_neg (fun h => hnac (hiff.mp h))]

/-- Witness for C1 at a concrete acyclic two-job map. -/
theorem dag_builder_accepts_iff_acyclic_witness :
    (validateDAG [("build", []), ("test", ["build"])] = true ↔
      AcyclicJobs [("build", []), ("test", ["build"])]) ∧
    (buildRunGraph [("build", []), ("test", ["build"])] = none ↔
      ¬ AcyclicJobs [("build", []), ("test", ["build"])]) :=
  dag_builder_accepts_iff_acyclic [("build", []), ("test", ["build"])] (by decide) (by decide)

/- Artifact store lemmas: transitive dependency closure.               -/

theorem needsOf_sound {g : JobMap} {c b : String} (h : b ∈ needsOf g c) :
    needsRel g c b := by
  unfold needsOf at h
  cases hfind : g.find? (fun p => p.1 == c) with
  | none => rw [hfind] at h; cases h
  | some p =>
    rw [hfind] at h
    have hp : p ∈ g := List.mem_of_find?_eq_some hfind
    have hpc := List.find?_some hfind
    exact ⟨p, hp, by simpa using hpc, h⟩

theorem needsOf_complete {g : JobMap} (hnd : (jobNames g).Nodup) {c b : String}
    (h : needsRel g c b) : b ∈ needsOf g c := by
  obtain ⟨p, hpg, hpc, hbp⟩ := h
  unfold needsOf
  cases hfind : g.find? (fun p => p.1 == c) with
  | none =>
    exfalso
    exact (List.find?_eq_none.mp hfind p hpg) (by simpa using hpc)
  | some q =>
    have hq : q ∈ g := List.mem_of_find?_eq_some hfind
    have hqc := List.find?_some hfind
    have hqc2 : q.1 = c := by simpa using hqc
    have hpq : p = q := by
      refine key_unique hnd hpg hq ?_
      rw [hpc, hqc2]
    rw [← hpq]
    exact hbp

theorem closureStep_subset (g : JobMap) (s : Finset String) : s ⊆ closureStep g s :=
  Finset.subset_union_left

theorem closureIter_subset (g : JobMap) (k : Nat) (s : Finset String) :
    s ⊆ (closureStep g)^[k] s := by
  induction k with
  | zero => exact subset_rfl
  | succ k ih =>
    rw [Function.iterate_succ_apply']
    exact ih.trans (closureStep_subset g _)

theorem closureIter_sound {g : JobMap} {a : String} :
    ∀ (k : Nat) (s : Finset String),
      (∀ b ∈ s, Relation.TransGen (needsRel g) a b) →
      ∀ b ∈ (closureStep g)^[k] s, Relation.TransGen (needsRel g) a b := by
  intro k
  induction k with
  | zero => intro s hs b hb; exact hs b (by simpa using hb)
  | succ k ih =>
    intro s hs b hb
    rw [Function.iterate_succ_apply] at hb
    refine ih (closureStep g s) ?_ b hb
    intro c hc
    rcases Finset.mem_union.mp hc with h1 | h1
    · exact hs c h1
    · obtain ⟨d, hd, hcd⟩ := Finset.mem_biUnion.mp h1
      exact Relation.TransGen.tail (hs d hd) (needsOf_sound (List.mem_toFinset.mp hcd))

theorem mem_foldr_needs {b : String} :
    ∀ (g : JobMap) (p : String × List String), p ∈ g → b ∈ p.2 →
      b ∈ g.foldr (fun p acc => p.2.toFinset ∪ acc) ∅ := by
  intro g
  induction g with
  | nil => intro p hp; cases hp
  | cons q t ih =>
    intro p hp hb
    simp only [List.foldr_cons]
    rcases List.mem_cons.mp hp with rfl | hp2
    · exact Finset.mem_union_left _ (List.mem_toFinset.mpr hb)
    · exact Finset.mem_union_right _ (ih p hp2 hb)

theorem needsOf_subset_universe (g : JobMap) (c : String) :
    (needsOf g c).toFinset ⊆ depUniverse g := by
  intro b hb
  rw [List.mem_toFinset] at hb
  unfold needsOf at hb
  unfold depUniverse
  cases hfind : g.find? (fun p => p.1 == c) with
  | none => rw [hfind] at hb; cases hb
  | some p =>
    rw [hfind] at hb
    have hp : p ∈ g := List.mem_of_find?_eq_some hfind
    exact Finset.mem_union_right _ (mem_foldr_needs g p hp hb)

theorem closureStep_subset_universe {g : JobMap} {s : Finset String}
    (hs : s ⊆ depUniverse g) : closureStep g s ⊆ depUniverse g := by
  unfold closureStep
  refine Finset.union_subset hs ?_
  intro b hb
  obtain ⟨d, hd, hbd⟩ := Finset.mem_biUnion.mp hb
  exact needsOf_subset_universe g d hbd

theorem closureIter_subset_universe {g : JobMap} {s : Finset String}
    (hs : s ⊆ depUniverse g) : ∀ k, (closureStep g)^[k] s ⊆ depUniverse g := by
  intro k
  induction k with
  | zero => simpa using hs
  | succ k ih =>
    rw [Function.iterate_succ_apply']
    exact closureStep_subset_universe ih

theorem card_growth {g : JobMap} {s : Finset String} :
    ∀ k : Nat, (∀ j, j < k → (closureStep g)^[j + 1] s ≠ (closureStep g)^[j] s) →
      s.card + k ≤ ((closureStep g)^[k] s).card := by
  intro k
  induction k with
  | zero => intro _; simp
  | succ k ih =>
    intro h
    have h1 : s.card + k ≤ ((closureStep g)^[k] s).card := ih (fun j hj => h j (by omega))
    have hne : (closureStep g)^[k + 1] s ≠ (closureStep g)^[k] s := h k (by omega)
    have hsub : (closureStep g)^[k] s ⊆ (closureStep g)^[k + 1] s := by
      rw [Function.iterate_succ_apply']
      exact closureStep_subset g _
    have hlt := Finset.card_lt_card (hsub.ssubset_of_ne (Ne.symm hne))
    omega

theorem exists_saturation {g : JobMap} {s : Finset String} (hs : s ⊆ depUniverse g) :
    ∃ j, j ≤ (depUniverse g).card ∧
      (closureStep g)^[j + 1] s = (closureStep g)^[j] s := by
  by_contra hc
  push_neg at hc
  have hgrow := card_growth ((depUniverse g).card + 1)
    (fun j hj => hc j (by omega))
  have hb : ((closureStep g)^[(depUniverse g).card + 1] s).card ≤ (depUniverse g).card :=
    Finset.card_le_card (closureIter_subset_universe hs _)
  omega

theorem sat_persist {g : JobMap} {s : Finset String} {j : Nat}
    (hj : (closureStep g)^[j + 1] s = (closureStep g)^[j] s) :
    ∀ m, j ≤ m → (closureStep g)^[m] s = (closureStep g)^[j] s := by
  intro m
  induction m with
  | zero =>
    intro h0
    have hj0 : j = 0 := by omega
    rw [hj0]
  | succ m ih =>
    intro hm
    rcases Nat.lt_or_ge m j with hgt | hle
    · have hj1 : j = m + 1 := by omega
      rw [← hj1]
    · have heq := ih hle
      rw [Function.iterate_succ_apply', heq,
        ← Function.iterate_succ_apply' (closureStep g) j s]
      exact hj

theorem transDeps_fixpoint (g : JobMap) (a : String) :
    closureStep g (transDeps g a) = transDeps g a := by
  unfold transDeps
  obtain ⟨j, hjle, hfix⟩ := exists_saturation (needsOf_subset_universe g a)
  calc closureStep g ((closureStep g)^[(depUniverse g).card + 1] (needsOf g a).toFinset)
      = (closureStep g)^[(depUniverse g).card + 2] (needsOf g a).toFinset :=
        (Function.iterate_succ_apply' _ _ _).symm
    _ = (closureStep g)^[j] (needsOf g a).toFinset := sat_persist hfix _ (by omega)
    _ = (closureStep g)^[(depUniverse g).card + 1] (needsOf g a).toFinset :=
        (sat_persist hfix _ (by omega)).symm

theorem transDeps_sound {g : JobMap} {a b : String} (h : b ∈ transDeps g a) :
    Relation.TransGen (needsRel g) a b := by
  unfold transDeps at h
  refine closureIter_sound _ _ ?_ b h
  intro c hc
  exact Relation.TransGen.single (needsOf_sound (List.mem_toFinset.mp hc))

theorem transDeps_complete {g : JobMap} (hnd : (jobNames g).Nodup) {a b : String}
    (h : Relation.TransGen (needsRel g) a b) : b ∈ transDeps g a := by
  induction h with
  | single h1 =>
    have hb := needsOf_complete hnd h1
    have hsub : (needsOf g a).toFinset ⊆ transDeps g a := by
      unfold transDeps
      exact closureIter_subset g _ _
    exact hsub (List.mem_toFinset.mpr hb)
  | @tail c d h1 h2 ih =>
    rw [← transDeps_fixpoint g a]
    unfold closureStep
    refine Finset.mem_union_right _ (Finset.mem_biUnion.mpr ⟨c, ih, ?_⟩)
    exact List.mem_toFinset.mpr (needsOf_complete hnd h2)

theorem mem_transDeps_iff {g : JobMap} (hnd : (jobNames g).Nodup) (a b : String) :
    b ∈ transDeps g a ↔ Relation.TransGen (needsRel g) a b :=
  ⟨transDeps_sound, transDeps_complete hnd⟩

/-- C6: the Artifact Store is write-once-per-key (the first write to a
(run, job, key) triple succeeds, a second write to the same triple is a
duplicate-write validation error leaving the store unchanged), a read
succeeds only for a key produced by a transitive `needs` dependency of
the reading job, and a failing read distinguishes notFound (no entry
with that run and key) from notAuthorized (entries exist but no
producer is a transitive dependency). -/
theorem artifact_store_write_once_read_scoped (g : JobMap)
    (hnd : (jobNames g).Nodup) (st : Store) (runId reader key : String) :
    (∀ (k : ArtKey) (v : Value), (∀ e ∈ st, e.1 ≠ k) →
      writeArtifact st k v = .ok ((k, v) :: st)) ∧
    (∀ (k : ArtKey) (v v0 : Value), (k, v0) ∈ st →
      writeArtifact st k v = .duplicateWrite) ∧
    (∀ v : Value, readArtifact g st runId reader key = .ok v →
      ∃ e ∈ st, e.1.run = runId ∧ e.1.key = key ∧ e.2 = v ∧
        Relation.TransGen (needsRel g) reader e.1.job) ∧
    (readArtifact g st runId reader key = .notFound ↔
      ∀ e ∈ st, ¬ (e.1.run = runId ∧ e.1.key = key)) ∧
    (readArtifact g st runId reader key = .notAuthorized →
      (∃ e ∈ st, e.1.run = runId ∧ e.1.key = key) ∧
      ∀ e ∈ st, e.1.run = runId → e.1.key = key →
        ¬ Relation.TransGen (needsRel g) reader e.1.job) := by
  refine ⟨?_, ?_, ?_, ?_, ?_⟩
  · intro k v hnew
    unfold writeArtifact
    have hany : st.any (fun e => e.1 == k) = false := by
      rw [List.any_eq_false]
      intro e he
      simpa using hnew e he
    rw [hany]
    simp
  · intro k v v0 hk
    unfold writeArtifact
    have hany : st.any (fun e => e.1 == k) = true := by
      rw [List.any_eq_true]
      exact ⟨(k, v0), hk, by simp⟩
    rw [hany]
    simp
  · intro v hok
    simp only [readArtifact] at hok
    cases hfind : (st.filter fun e => e.1.run == runId && e.1.key == key).find?
        (fun e => decide (e.1.job ∈ transDeps g reader)) with
    | none =>
      rw [hfind] at hok
      by_cases hemp : (st.filter fun e => e.1.run == runId && e.1.key == key) = []
      · rw [if_pos hemp] at hok
        cases hok
      · rw [if_neg hemp] at hok
        cases hok
    | some e =>
      rw [hfind] at hok
      have hv : e.2 = v := by
        injection hok
      have he1 := List.mem_of_find?_eq_some hfind
      have he2 : e ∈ st := List.mem_of_mem_filter he1
      have hkey := List.of_mem_filter he1
      have hauth := List.find?_some hfind
      simp only [Bool.and_eq_true, beq_iff_eq] at hkey
      have hmem : e.1.job ∈ transDeps g reader := by simpa using hauth
      exact ⟨e, he2, hkey.1, hkey.2, hv, transDeps_sound hmem⟩
  · constructor
    · intro hnf
      simp only [readArtifact] at hnf
      cases hfind : (st.filter fun e => e.1.run == runId && e.1.key == key).find?
          (fun e => decide (e.1.job ∈ transDeps g reader)) with
      | none =>
        rw [hfind] at hnf
        by_cases hemp : (st.filter fun e => e.1.run == runId && e.1.key == key) = []
        · intro e he hbad
          have hmem : e ∈ st.filter fun e => e.1.run == runId && e.1.key == key :=
            List.mem_filter.mpr ⟨he, by simp [hbad.1, hbad.2]⟩
          rw [hemp] at hmem
          cases hmem
        · rw [if_neg hemp] at hnf
          cases hnf
      | some e =>
        rw [hfind] at hnf
        cases hnf
    · intro hall
      have hemp : (st.filter fun e => e.1.run == runId && e.1.key == key) = [] := by
        rw [List.filter_eq_nil_iff]
        intro e he
        have hne := hall e he
        intro hb
        simp only [Bool.and_eq_true, beq_iff_eq] at hb
        exact hne hb
      simp only [readArtifact]
      rw [hemp]
      simp
  · intro hna
    simp only [readArtifact] at hna
    cases hfind : (st.filter fun e => e.1.run == runId && e.1.key == key).find?
        (fun e => decide (e.1.job ∈ transDeps g reader)) with
    | none =>
      rw [hfind] at hna
      by_cases hemp : (st.filter fun e => e.1.run == runId && e.1.key == key) = []
      · rw [if_pos hemp] at hna
        cases hna
      · constructor
        · obtain ⟨x, hx⟩ := List.exists_mem_of_ne_nil _ hemp
          have hxs : x ∈ st := List.mem_of_mem_filter hx
          have hxk := List.of_mem_filter hx
          simp only [Bool.and_eq_true, beq_iff_eq] at hxk
          exact ⟨x, hxs, hxk.1, hxk.2⟩
        · intro e he hrun hk htg
          have hmem : e ∈ st.filter fun e => e.1.run == runId && e.1.key == key :=
            List.mem_filter.mpr ⟨he, by simp [hrun, hk]⟩
          have hno := List.find?_eq_none.mp hfind e hmem
          exact hno (decide_eq_true ((mem_transDeps_iff hnd reader e.1.job).mpr htg))
    | some e =>
      rw [hfind] at hna
      cases hna

/-- Witness for C6 at the cd.yml-style deploy graph: deploy transitively
needs prepare, which produced the deployment package. -/
theorem artifact_store_write_once_read_scoped_witness :
    (∀ (k : ArtKey) (v : Value),
      (∀ e ∈ ([(⟨"r1", "prepare", "pkg"⟩, "v1")] : Store), e.1 ≠ k) →
      writeArtifact [(⟨"r1", "prepare", "pkg"⟩, "v1")] k v =
        .ok ((k, v) :: [(⟨"r1", "prepare", "pkg"⟩, "v1")])) ∧
    (∀ (k : ArtKey) (v v0 : Value), (k, v0) ∈ ([(⟨"r1", "prepare", "pkg"⟩, "v1")] : Store) →
      writeArtifact [(⟨"r1", "prepare", "pkg"⟩, "v1")] k v = .duplicateWrite) ∧
    (∀ v : Value, readArtifact [("deploy", ["prepare"]), ("prepare", [])]
        [(⟨"r1", "prepare", "pkg"⟩, "v1")] "r1" "deploy" "pkg" = .ok v →
      ∃ e ∈ ([(⟨"r1", "prepare", "pkg"⟩, "v1")] : Store), e.1.run = "r1" ∧ e.1.key = "pkg" ∧
        e.2 = v ∧ Relation.TransGen (needsRel [("deploy", ["prepare"]), ("prepare", [])])
          "deploy" e.1.job) ∧
    (readArtifact [("deploy", ["prepare"]), ("prepare", [])]
        [(⟨"r1", "prepare", "pkg"⟩, "v1")] "r1" "deploy" "pkg" = .notFound ↔
      ∀ e ∈ ([(⟨"r1", "prepare", "pkg"⟩, "v1")] : Store),
        ¬ (e.1.run = "r1" ∧ e.1.key = "pkg")) ∧
    (readArtifact [("deploy", ["prepare"]), ("prepare", [])]
        [(⟨"r1", "prepare", "pkg"⟩, "v1")] "r1" "deploy" "pkg" = .notAuthorized →
      (∃ e ∈ ([(⟨"r1", "prepare", "pkg"⟩, "v1")] : Store),
        e.1.run = "r1" ∧ e.1.key = "pkg") ∧
      ∀ e ∈ ([(⟨"r1", "prepare", "pkg"⟩, "v1")] : Store), e.1.run = "r1" → e.1.key = "pkg" →
        ¬ Relation.TransGen (needsRel [("deploy", ["prepare"]), ("prepare", [])])
          "deploy" e.1.job) :=
  artifact_store_write_once_read_scoped [("deploy", ["prepare"]), ("prepare", [])]
    (by decide) [(⟨"r1", "prepare", "pkg"⟩, "v1")] "r1" "deploy" "pkg"

end Pipeline
